import Mathlib

/-!
Verification of the link-time provenance reconstruction pipeline implemented in
`infra/base-images/base-builder/indexer/clang_wrapper.py`.

Python strings are modelled as `List Char` (`Str`); Python's `str.endswith`,
`str.startswith`, slicing `[2:]` and `[:-2]` become `List.isSuffixOf`,
`List.isPrefixOf`, `List.drop 2` and `List.rdrop 2`.  File contents are
modelled as the data they hold (a dependency file as the list of its stripped
lines, mirroring `[line.strip() for line in f]`; a CDB fragment directory as
the list of `(file name, file content)` pairs in creation-time order, which is
the order `files_by_creation_time` visits them).  `os.path.realpath` is an
arbitrary function parameter `rp`, and the `json` module's decoding of one
command object is an arbitrary function `json_parse`: both are external to the
source under verification.  Python `dict`s are association lists with
insertion-order semantics (`dictInsert` overwrites in place, appends fresh
keys), matching CPython's ordered dictionaries, and `dict.values()` is
`dictValues`.  A Python `assert` failure, an uncaught exception or
`sys.exit(nonzero)` all end the process with a nonzero exit status before any
later write happens; they are modelled by `Option.none` / `Except.error`.
-/

namespace ClangWrapper

abbrev Str := List Char

/-- The compile-command objects stored in CDB fragments.  The matcher reads
the `directory` and `output` fields; the rest of the JSON object is carried
opaquely as `arguments`. -/
structure CompileCommand where
  directory : Str
  output : Str
  arguments : List Str
deriving DecidableEq, Repr

/-- Python `os.path.join(a, b)`: an absolute second component replaces the first,
otherwise the components are joined with a single separator. -/
def path_join (a b : Str) : Str :=
  if ('/' :: []).isPrefixOf b then b
  else if a = [] then b
  else if (['/'] : Str).isSuffixOf a then a ++ b
  else a ++ '/' :: b

/-- Python `os.path.basename`: everything after the last path separator. -/
def basename (p : Str) : Str :=
  (p.reverse.takeWhile (fun c => c ≠ '/')).reverse

/-- The literal flag `-o`. -/
def oFlag : Str := ['-', 'o']

/-- Source `get_flag_value`: scan `argv[i]` for
`i in range(len(argv)-1)`; an exact flag token yields the next argument, and
for the flag `-o` only, a token merely starting with the flag yields the token
with its first two characters removed. -/
def get_flag_value (argv : List Str) (flag : Str) : Option Str :=
  match argv with
  | a :: b :: rest =>
    if a = flag then some b
    else if flag = oFlag ∧ flag.isPrefixOf a then some (a.drop 2)
    else get_flag_value (b :: rest) flag
  | _ => none

/-- Source `remove_flag_and_value`: at the first position `i` (with
`i < len(argv) - 1`) whose token is the flag, or, for `-o`, merely starts with
the flag, return `argv[:i] + argv[i+2:]`; `None` when no position matches. -/
def remove_flag_and_value (argv : List Str) (flag : Str) : Option (List Str) :=
  match argv with
  | a :: b :: rest =>
    if a = flag then some rest
    else if flag = oFlag ∧ flag.isPrefixOf a then some rest
    else (remove_flag_and_value (b :: rest) flag).map (fun r => a :: r)
  | _ => none

/-- The fixed system prefixes `ignored_dep_paths` of `parse_dependency_file`. -/
def ignored_dep_paths : List Str := ["/usr".toList, "/clang".toList, "/lib".toList]

/-- Source test `any([True for p in ignored_dep_paths if dep.startswith(p)])`. -/
def is_system_dep (dep : Str) : Bool :=
  ignored_dep_paths.any (fun p => p.isPrefixOf dep)

/-- The loop body of `parse_dependency_file`: drop the trailing ` \`
line-continuation marker if present (`line[:-2]`). -/
def strip_line_cont (line : Str) : Str :=
  if ([' ', '\\'] : Str).isSuffixOf line then line.rdrop 2 else line

/-- The dependency-collecting loop of `parse_dependency_file` over
`lines[1:]`: stop at the first blank line, strip continuations, canonicalize
with `rp`, and skip system-prefixed or ignored dependencies. -/
def parse_deps_loop (rp : Str → Str) (ignored_deps : List Str) : List Str → List Str
  | [] => []
  | line :: rest =>
    if line = [] then []
    else
      let dep := rp (strip_line_cont line)
      if is_system_dep dep then parse_deps_loop rp ignored_deps rest
      else if dep ∈ ignored_deps then parse_deps_loop rp ignored_deps rest
      else dep :: parse_deps_loop rp ignored_deps rest

/-- The header tail `": \"` appended to the canonicalized output path to form
`output_file_line`. -/
def header_tail : Str := [':', ' ', '\\']

/-- Source `parse_dependency_file`.  `lines` is the list of stripped
lines of the file.  The header check is
`assert output_file_line.endswith(lines[0])`, i.e. the first line must be a
suffix of `<rp output_file>: \`; a failed assert (or an empty file, where
`lines[0]` raises) aborts the process, modelled by `none`. -/
def parse_dependency_file (rp : Str → Str) (lines : List Str)
    (output_file : Str) (ignored_deps : List Str) : Option (List Str) :=
  match lines with
  | [] => none
  | first :: rest =>
    if first.isSuffixOf (rp output_file ++ header_tail) then
      some (parse_deps_loop rp ignored_deps rest)
    else none

/-- The two-character sentinel `",\n"` terminating every complete fragment. -/
def sentinel : Str := [',', '\n']

/-- File-name suffix of previously generated provenance records, which
`read_cdb_fragments` must skip. -/
def linker_commands_suffix : Str := "_linker_commands.json".toList

/-- File-name suffix a file must have to be ingested as a CDB fragment. -/
def json_suffix : Str := ".json".toList

/-- Source `read_cdb_fragments`, at the string level: visit the
files in creation-time order, skip provenance outputs and files without the
`.json` suffix, demand the sentinel (`assert data.endswith(",\n")`, a failure
aborting the process, modelled by `none`) and keep `data[:-2]`.  The source
then joins the kept bodies with `",\n"`, wraps them in `[` `]` and calls
`json.loads`; since each body holds one JSON object, the parsed array has
exactly one element per kept body, so the reconstructed database is modelled
by the list of kept bodies. -/
def read_cdb_fragments : List (Str × Str) → Option (List Str)
  | [] => some []
  | (name, data) :: rest =>
    if linker_commands_suffix.isSuffixOf name then read_cdb_fragments rest
    else if ¬ json_suffix.isSuffixOf name then read_cdb_fragments rest
    else if sentinel.isSuffixOf data then
      (read_cdb_fragments rest).map (fun cs => data.rdrop 2 :: cs)
    else none

/-- The Python `commands` dict: an insertion-ordered association list. -/
abbrev Dict := List (Str × CompileCommand)

/-- Assignment `d[k] = v` on an insertion-ordered dict: overwrite in place, append when
the key is fresh. -/
def dictInsert (m : Dict) (k : Str) (v : CompileCommand) : Dict :=
  match m with
  | [] => [(k, v)]
  | (k', v') :: rest => if k' = k then (k, v) :: rest else (k', v') :: dictInsert rest k v

/-- Lookup `d.get(k)`. -/
def dictGet (m : Dict) (k : Str) : Option CompileCommand :=
  match m with
  | [] => none
  | (k', v') :: rest => if k' = k then some v' else dictGet rest k

/-- Membership `k in d`. -/
def dictContains (m : Dict) (k : Str) : Bool :=
  m.any (fun p => p.1 = k)

/-- Values `list(d.values())` in insertion order. -/
def dictValues (m : Dict) : List CompileCommand :=
  m.map Prod.snd

/-- Python `os.path.realpath(os.path.join(command["directory"], command["output"]))`. -/
def command_output_path (rp : Str → Str) (c : CompileCommand) : Str :=
  rp (path_join c.directory c.output)

/-- The inner loop of the object-file matcher: bind `dep` to every command of
the CDB whose canonicalized output path equals `dep` (each successive match
overwrites the previous binding; there is no early exit in the source). -/
def match_obj_dep (rp : Str → Str) (cdb : List CompileCommand) (dep : Str)
    (m : Dict) : Dict :=
  match cdb with
  | [] => m
  | c :: rest =>
    match_obj_dep rp rest dep
      (if command_output_path rp c = dep then dictInsert m dep c else m)

/-- The object-file matching loop of `main`: skip the fuzzing engine,
canonicalize the dependency, run the inner loop, and record a `NOT FOUND`
report when the dependency is still absent from the dict.  The second
component collects the reported unmatched dependencies. -/
def match_obj_deps (rp : Str → Str) (fuzzer_engine : Str)
    (cdb : List CompileCommand) :
    List Str → Dict → List Str → Dict × List Str
  | [], m, unmatched => (m, unmatched)
  | dep :: rest, m, unmatched =>
    if dep = fuzzer_engine then match_obj_deps rp fuzzer_engine cdb rest m unmatched
    else
      let d := rp dep
      let m' := match_obj_dep rp cdb d m
      match_obj_deps rp fuzzer_engine cdb rest m'
        (if dictContains m' d then unmatched else unmatched ++ [d])

/-- The inner loop of the archive-member matcher: bind the member basename to
every command whose `output` basename equals it (again the last match
overwrites earlier ones). -/
def match_archive_dep (cdb : List CompileCommand) (member : Str) (m : Dict) : Dict :=
  match cdb with
  | [] => m
  | c :: rest =>
    match_archive_dep rest member
      (if basename c.output = member then dictInsert m member c else m)

/-- The archive-member matching loop of `main`, with `NOT FOUND` reports. -/
def match_archive_deps (cdb : List CompileCommand) :
    List Str → Dict → List Str → Dict × List Str
  | [], m, unmatched => (m, unmatched)
  | member :: rest, m, unmatched =>
    let m' := match_archive_dep cdb member m
    match_archive_deps cdb rest m'
      (if dictContains m' member then unmatched else unmatched ++ [member])

/-- Filter `[dep for dep in deps if dep.endswith(".o")]`. -/
def obj_deps_of (deps : List Str) : List Str :=
  deps.filter (fun d => (".o".toList).isSuffixOf d)

/-- Filter `[dep for dep in deps if dep.endswith(".a") and dep != fuzzer_engine]`. -/
def ar_deps_of (deps : List Str) (fuzzer_engine : Str) : List Str :=
  deps.filter (fun d => (".a".toList).isSuffixOf d && decide (d ≠ fuzzer_engine))

/-- The literal flag `-gen-cdb-fragment-path`. -/
def cdbFlag : Str := "-gen-cdb-fragment-path".toList

/-- The literal argument `-lFuzzingEngine` recognized by the dispatcher. -/
def lFuzzingEngine : Str := "-lFuzzingEngine".toList

/-- Everything `main` reads from outside its own code: the environment, the
outcome and output of each child process, and the contents of the files it
opens.  `rp` is `os.path.realpath`; `json_parse` is the decoding of one JSON
command object by `json.loads`. -/
structure World where
  rp : Str → Str
  cwd : Str
  fuzzer_engine : Option Str
  linker_exit : Nat
  readelf_exit : Nat
  elf_build_id : Option Str
  output_sha256 : Str
  ignored_deps : List Str
  dep_lines : List Str
  ar_exit : Str → Nat
  ar_members : Str → List Str
  json_parse : Str → CompileCommand
  fragments : List (Str × Str)

/-- The provenance record `linker_commands` assembled at the end of `main`. -/
structure LinkerCommands where
  output : Str
  directory : Str
  deps : List Str
  args : List Str
  sha256 : Str
  gnu_build_id : Str
  compile_commands : List CompileCommand
deriving DecidableEq, Repr

/-- The two terminal behaviours of one invocation: replace the process with
the real compiler (`execute`), or run the capture pipeline, which either
aborts with a nonzero exit before writing anything (`Except.error`) or writes
exactly one provenance record file (`Except.ok (path, record)`). -/
inductive MainOutcome where
  | passthrough
  | captured (r : Except String (Str × LinkerCommands))
deriving Repr

/-- The flags appended to `argv` before re-running the link. -/
def augment_argv (argv : List Str) (dependency_file why_extract_file : Str) : List Str :=
  argv ++ ["-fuse-ld=lld".toList,
    "-Wl,--dependency-file=".toList ++ dependency_file,
    "-Wl,--why-extract=".toList ++ why_extract_file,
    "-Wl,--build-id".toList]

/-- The argument list `run` actually spawns, and which `main` later stores in
the record's `args` (the rewrite of `argv[0]` mutates the list in place):
`argv[0]` becomes `os.path.join("/usr/local/bin/", os.path.basename(argv[0]))`.
The augmented list always has a head, since four flags were just appended. -/
def run_argv (argv1 : List Str) (dependency_file why_extract_file : Str) : List Str :=
  match augment_argv argv1 dependency_file why_extract_file with
  | [] => []
  | a :: rest => path_join ("/usr/local/bin/".toList) (basename a) :: rest

/-- The capture path of `main`, from the `-o` extraction to the provenance
record.  Every `Except.error` is a Python `assert` failure, uncaught
exception or propagated nonzero child exit: the process ends with a nonzero
status and the final `open(commands_path, "w")` is never reached. -/
def main_capture (w : World) (argv0 : List Str) (fe : Str) :
    Except String (Str × LinkerCommands) :=
  match get_flag_value argv0 oFlag with
  | none => .error "Missing output file"
  | some output_file =>
  if output_file = [] then .error "Missing output file" else
  match get_flag_value argv0 cdbFlag with
  | none => .error "Missing Compile Directory Path"
  | some cdb_path =>
  if cdb_path = [] then .error "Missing Compile Directory Path" else
  match remove_flag_and_value argv0 cdbFlag with
  | none => .error "argv is None"
  | some argv1 =>
  if w.linker_exit ≠ 0 then .error "linker exited nonzero" else
  if w.readelf_exit ≠ 0 then .error "llvm-readelf exited nonzero" else
  match w.elf_build_id with
  | none => .error "build id is None"
  | some build_id =>
  match parse_dependency_file w.rp w.dep_lines output_file w.ignored_deps with
  | none => .error "dependency file lines[0] mismatch"
  | some deps =>
  if ∃ a ∈ ar_deps_of deps fe, w.ar_exit a ≠ 0 then .error "ar exited nonzero" else
  match read_cdb_fragments w.fragments with
  | none => .error "invalid compile commands file"
  | some bodies =>
    let cdb := bodies.map w.json_parse
    let archive_deps := (ar_deps_of deps fe).flatMap w.ar_members
    let r1 := match_obj_deps w.rp fe cdb (obj_deps_of deps) [] []
    let r2 := match_archive_deps cdb archive_deps r1.1 r1.2
    .ok (path_join cdb_path (build_id ++ linker_commands_suffix),
      { output := output_file
        directory := w.cwd
        deps := obj_deps_of deps ++ archive_deps
        args := run_argv argv1
          (path_join cdb_path (basename output_file ++ ".deps".toList))
          (path_join cdb_path (basename output_file ++ ".why_extract".toList))
        sha256 := w.output_sha256
        gnu_build_id := build_id
        compile_commands := dictValues r2.1 })

/-- Source `main`: pass through unless the configured fuzzing-engine
value is set, nonempty, and present in `argv` (or `-lFuzzingEngine` is). -/
def main (w : World) (argv : List Str) : MainOutcome :=
  match w.fuzzer_engine with
  | none => .passthrough
  | some fe =>
    if fe = [] then .passthrough
    else if fe ∉ argv ∧ lFuzzingEngine ∉ argv then .passthrough
    else .captured (main_capture w argv fe)

/-! ### Dictionary lemmas -/

theorem dictGet_insert_self (m : Dict) (k : Str) (v : CompileCommand) :
    dictGet (dictInsert m k v) k = some v := by
  induction m with
  | nil => simp [dictInsert, dictGet]
  | cons p rest ih =>
    obtain ⟨k', v'⟩ := p
    by_cases h : k' = k
    · simp [dictInsert, dictGet, h]
    · simp [dictInsert, dictGet, h, ih]

theorem dictGet_insert_ne (m : Dict) (k k₂ : Str) (v : CompileCommand)
    (h : k ≠ k₂) : dictGet (dictInsert m k v) k₂ = dictGet m k₂ := by
  induction m with
  | nil => simp [dictInsert, dictGet, h]
  | cons p rest ih =>
    obtain ⟨k', v'⟩ := p
    by_cases hk : k' = k
    · subst hk
      simp [dictInsert, dictGet, h]
    · simp [dictInsert, dictGet, hk, ih]

theorem dictContains_eq_isSome (m : Dict) (k : Str) :
    dictContains m k = (dictGet m k).isSome := by
  induction m with
  | nil => simp [dictContains, dictGet]
  | cons p rest ih =>
    obtain ⟨k', v'⟩ := p
    by_cases h : k' = k
    · simp [dictContains, dictGet, h]
    · simp [dictContains, dictGet, h] at ih ⊢
      exact ih

/-! ### The last CDB match wins (C1) -/

/-- The last command of the CDB whose canonicalized `directory`-joined
`output` equals the dependency path, in CDB order. -/
def last_obj_match (rp : Str → Str) (cdb : List CompileCommand) (dep : Str) :
    Option CompileCommand :=
  cdb.foldl (fun acc c => if command_output_path rp c = dep then some c else acc) none

/-- The last command of the CDB whose `output` basename equals the archive
member name, in CDB order. -/
def last_archive_match (cdb : List CompileCommand) (member : Str) :
    Option CompileCommand :=
  cdb.foldl (fun acc c => if basename c.output = member then some c else acc) none

theorem match_obj_dep_get (rp : Str → Str) (cdb : List CompileCommand) (dep : Str) :
    ∀ (m : Dict) (acc : Option CompileCommand), dictGet m dep = acc →
      dictGet (match_obj_dep rp cdb dep m) dep
        = cdb.foldl (fun a c => if command_output_path rp c = dep then some c else a) acc := by
  induction cdb with
  | nil => intro m acc h; simpa [match_obj_dep] using h
  | cons c rest ih =>
    intro m acc h
    by_cases hc : command_output_path rp c = dep
    · simp only [match_obj_dep, List.foldl, hc, if_true]
      exact ih _ _ (dictGet_insert_self m dep c)
    · simp only [match_obj_dep, List.foldl, hc, if_false]
      exact ih _ _ h

theorem match_archive_dep_get (cdb : List CompileCommand) (member : Str) :
    ∀ (m : Dict) (acc : Option CompileCommand), dictGet m member = acc →
      dictGet (match_archive_dep cdb member m) member
        = cdb.foldl (fun a c => if basename c.output = member then some c else a) acc := by
  induction cdb with
  | nil => intro m acc h; simpa [match_archive_dep] using h
  | cons c rest ih =>
    intro m acc h
    by_cases hc : basename c.output = member
    · simp only [match_archive_dep, List.foldl, hc, if_true]
      exact ih _ _ (dictGet_insert_self m member c)
    · simp only [match_archive_dep, List.foldl, hc, if_false]
      exact ih _ _ h

/-- A compile command for output `x.o` in directory `/b`. -/
def cmdFirst : CompileCommand := ⟨"/b".toList, "x.o".toList, ["one".toList]⟩

/-- A different compile command for the same output `x.o` in `/b`. -/
def cmdSecond : CompileCommand := ⟨"/b".toList, "x.o".toList, ["two".toList]⟩

/-- C1, as stated, is false: with two distinct commands `cmdFirst, cmdSecond`
(in that CDB order) both canonicalizing to the output `/b/x.o`, the matcher
binds the dependency `/b/x.o` to `cmdSecond`, the last one, not the first:
the inner loop of `main` has no early exit, so each later match overwrites
the binding. -/
theorem C1_first_match_counterexample :
    dictGet (match_obj_dep (fun s => s) [cmdFirst, cmdSecond] ("/b/x.o".toList) [])
        ("/b/x.o".toList) = some cmdSecond
    ∧ cmdSecond ≠ cmdFirst
    ∧ command_output_path (fun s => s) cmdFirst = "/b/x.o".toList
    ∧ command_output_path (fun s => s) cmdSecond = "/b/x.o".toList := by
  refine ⟨by decide, by decide, by decide, by decide⟩

/-- C1 amended: for every reconstructed CDB and every dependency (object-file
path or archive-member basename), the matcher binds the dependency to the
**last** command whose output canonicalizes to it, in CDB order (each match
overwrites the previous binding; with a single match this is that match). -/
theorem C1_matcher_binds_last_match (rp : Str → Str) (cdb : List CompileCommand)
    (dep member : Str) :
    dictGet (match_obj_dep rp cdb dep []) dep = last_obj_match rp cdb dep
    ∧ dictGet (match_archive_dep cdb member []) member = last_archive_match cdb member :=
  ⟨match_obj_dep_get rp cdb dep [] none rfl,
   match_archive_dep_get cdb member [] none rfl⟩

/-! ### Dependency-file header check (C2) and well-formed parsing (C4) -/

/-- C2, as stated, is false: a dependency file whose first (stripped) line is
empty — which does not reference the output path `/out/x` at all, and is not
the header `/out/x: \` — is silently accepted, because the source checks
`output_file_line.endswith(lines[0])` and every string ends with the empty
string.  Parsing then succeeds and even returns dependencies. -/
theorem C2_empty_header_counterexample :
    parse_dependency_file (fun s => s) ([] :: ["a.o".toList]) ("/out/x".toList) []
        = some ["a.o".toList]
    ∧ ([] : Str) ≠ "/out/x".toList ++ header_tail := by
  refine ⟨by decide, by decide⟩

/-- C2 amended: parsing fails fatally exactly when the file's first line is
not a **suffix** of the header `<canonicalized-output-path>: \`; a first line
that is a proper suffix of the header (the empty line included) is accepted. -/
theorem C2_header_mismatch_fatal (rp : Str → Str) (first : Str) (rest : List Str)
    (output_file : Str) (ignored_deps : List Str) :
    parse_dependency_file rp (first :: rest) output_file ignored_deps = none
      ↔ first.isSuffixOf (rp output_file ++ header_tail) = false := by
  by_cases h : first.isSuffixOf (rp output_file ++ header_tail)
  · simp [parse_dependency_file, h]
  · simp [parse_dependency_file, h]

/-- Modelled from the spec's testable property for C4 (this is the spec's
wording, to be compared with `parse_dependency_file` from the source): the
lines between the header and the first blank line, each stripped of its
trailing line continuation and canonicalized, with every system-prefixed or
ignored-set path removed, in encounter order, without de-duplication. -/
def spec_dependency_paths (rp : Str → Str) (ignored_deps : List Str)
    (lines : List Str) : List Str :=
  ((lines.takeWhile (fun l => l ≠ [])).map (fun l => rp (strip_line_cont l))).filter
    (fun d => !(is_system_dep d) && !(decide (d ∈ ignored_deps)))

/-- C4: for every well-formed dependency file whose first line is the header
for the expected output path, the parser returns exactly the canonicalized,
continuation-stripped paths between the header and the first blank line, with
system-prefixed and ignored-set paths removed, in encounter order and without
de-duplication — the source parser agrees with the spec's description. -/
theorem C4_parse_wellformed (rp : Str → Str) (rest : List Str)
    (output_file : Str) (ignored_deps : List Str) :
    parse_dependency_file rp ((rp output_file ++ header_tail) :: rest)
        output_file ignored_deps
      = some (spec_dependency_paths rp ignored_deps rest) := by
  have hsuf : (rp output_file ++ header_tail).isSuffixOf
      (rp output_file ++ header_tail) = true := by
    simp [List.isSuffixOf_iff_suffix, List.suffix_refl]
  simp only [parse_dependency_file, hsuf, if_true]
  congr 1
  induction rest with
  | nil => simp [parse_deps_loop, spec_dependency_paths]
  | cons line rest ih =>
    by_cases hb : line = []
    · simp [parse_deps_loop, spec_dependency_paths, hb]
    · by_cases hs : is_system_dep (rp (strip_line_cont line))
      · simp only [parse_deps_loop, spec_dependency_paths, hb, if_neg, hs, if_true,
          List.takeWhile_cons, decide_not] at ih ⊢
        simpa [hb, hs] using ih
      · by_cases hm : rp (strip_line_cont line) ∈ ignored_deps
        · simp only [parse_deps_loop, spec_dependency_paths] at ih ⊢
          simpa [hb, hs, hm] using ih
        · simp only [parse_deps_loop, spec_dependency_paths] at ih ⊢
          simpa [hb, hs, hm] using ih

/-! ### CDB fragment reconstruction (C3, C5) -/

/-- C3, as stated, is false: reconstruction is **not** independent of file
naming.  A directory holding one fragment file with a complete
sentinel-terminated command object but a name that does not end in `.json`
yields an array of 0 command objects, not 1 — the reader skips the file. -/
theorem C3_naming_counterexample :
    read_cdb_fragments [("frag".toList, "cmd,\n".toList)] = some []
    ∧ sentinel.isSuffixOf ("cmd,\n".toList) = true
    ∧ (some ([] : List Str)).map List.length ≠ some 1 := by
  refine ⟨by decide, by decide, by decide⟩

/-- C3 amended: for every directory containing N fragment files, each named
with the `.json` suffix and not with the provenance-output suffix
`_linker_commands.json`, and each holding one JSON command object terminated
by the sentinel `,` + newline, reconstruction yields an array of exactly N
command objects regardless of the rest of the file naming, provided
visitation order follows creation time. -/
theorem C3_fragment_count (files : List (Str × Str))
    (h : ∀ p ∈ files, json_suffix.isSuffixOf p.1 = true
        ∧ linker_commands_suffix.isSuffixOf p.1 = false
        ∧ sentinel.isSuffixOf p.2 = true) :
    (read_cdb_fragments files).map List.length = some files.length := by
  induction files with
  | nil => simp [read_cdb_fragments]
  | cons p rest ih =>
    obtain ⟨name, data⟩ := p
    obtain ⟨h1, h2, h3⟩ := h (name, data) (List.mem_cons_self _ _)
    have ihr := ih (fun q hq => h q (List.mem_cons_of_mem _ hq))
    cases hr : read_cdb_fragments rest with
    | none => rw [hr] at ihr; simp at ihr
    | some cs =>
      rw [hr] at ihr
      simp at ihr
      simp [read_cdb_fragments, h1, h2, h3, hr, ihr]

/-- A witness for C3: two well-named, well-terminated fragments yield exactly
two command objects. -/
theorem C3_fragment_count_witness :
    (read_cdb_fragments [("a.json".toList, "x,\n".toList),
        ("b.json".toList, "y,\n".toList)]).map List.length = some 2 :=
  C3_fragment_count _ (by decide)

/-- C5: a fragment file (a file of the store with the `.json` fragment suffix
and not the provenance-output suffix) whose content does not end with the
two-character sentinel `,` + newline makes the whole reconstruction fail
fatally (`assert data.endswith(",\n")` aborts the process): the record is
never silently dropped from the reconstructed database. -/
theorem C5_torn_fragment_fatal (files : List (Str × Str)) (name data : Str)
    (hmem : (name, data) ∈ files)
    (hjson : json_suffix.isSuffixOf name = true)
    (hnotrec : linker_commands_suffix.isSuffixOf name = false)
    (htorn : sentinel.isSuffixOf data = false) :
    read_cdb_fragments files = none := by
  induction files with
  | nil => cases hmem
  | cons p rest ih =>
    obtain ⟨n, d⟩ := p
    rcases List.mem_cons.mp hmem with heq | hmem2
    · injection heq with e1 e2
      subst e1; subst e2
      simp [read_cdb_fragments, hjson, hnotrec, htorn]
    · by_cases b1 : linker_commands_suffix.isSuffixOf n = true
      · simp [read_cdb_fragments, b1, ih hmem2]
      · by_cases b2 : json_suffix.isSuffixOf n = true
        · by_cases b3 : sentinel.isSuffixOf d = true
          · simp [read_cdb_fragments, b1, b2, b3, ih hmem2]
          · simp [read_cdb_fragments, b1, b2, b3]
        · simp [read_cdb_fragments, b1, b2, ih hmem2]

/-- A witness for C5: a store holding one torn `.json` fragment fails to
reconstruct. -/
theorem C5_torn_fragment_fatal_witness :
    read_cdb_fragments [("a.json".toList, "x".toList)] = none :=
  C5_torn_fragment_fatal _ ("a.json".toList) ("x".toList) (by decide)
    (by decide) (by decide) (by decide)

/-! ### Matcher-loop lemmas -/

theorem dictGet_eq_none_iff (m : Dict) (k : Str) :
    dictGet m k = none ↔ ∀ p ∈ m, p.1 ≠ k := by
  induction m with
  | nil => simp [dictGet]
  | cons p rest ih =>
    obtain ⟨k', v'⟩ := p
    by_cases h : k' = k
    · constructor
      · intro hg
        rw [dictGet, if_pos h] at hg
        cases hg
      · intro hall
        exact absurd h (hall (k', v') (List.mem_cons_self _ _))
    · constructor
      · intro hg q hq
        rcases List.mem_cons.mp hq with rfl | hq2
        · exact h
        · rw [dictGet, if_neg h] at hg
          exact ih.mp hg q hq2
      · intro hall
        rw [dictGet, if_neg h]
        exact ih.mpr (fun q hq => hall q (List.mem_cons_of_mem _ hq))

theorem match_obj_dep_get_preserved (rp : Str → Str) (cdb : List CompileCommand)
    (d k : Str) (hnm : ∀ c ∈ cdb, command_output_path rp c ≠ k) :
    ∀ m : Dict, dictGet (match_obj_dep rp cdb d m) k = dictGet m k := by
  induction cdb with
  | nil => intro m; simp [match_obj_dep]
  | cons c rest ih =>
    intro m
    have hc := hnm c (List.mem_cons_self _ _)
    have ihr := ih (fun c' h' => hnm c' (List.mem_cons_of_mem _ h'))
    by_cases hd : command_output_path rp c = d
    · have hdk : d ≠ k := fun e => hc (hd.trans e)
      simp only [match_obj_dep, hd, if_true]
      rw [ihr, dictGet_insert_ne _ _ _ _ hdk]
    · simp only [match_obj_dep, hd, if_false]
      exact ihr m

theorem match_obj_dep_get_preserved_of_ne (rp : Str → Str)
    (cdb : List CompileCommand) (d k : Str) (hdk : d ≠ k) :
    ∀ m : Dict, dictGet (match_obj_dep rp cdb d m) k = dictGet m k := by
  induction cdb with
  | nil => intro m; simp [match_obj_dep]
  | cons c rest ih =>
    intro m
    by_cases hd : command_output_path rp c = d
    · simp only [match_obj_dep, hd, if_true]
      rw [ih, dictGet_insert_ne _ _ _ _ hdk]
    · simp only [match_obj_dep, hd, if_false]
      exact ih m

theorem match_archive_dep_get_preserved (cdb : List CompileCommand)
    (a k : Str) (hnm : ∀ c ∈ cdb, basename c.output ≠ k) :
    ∀ m : Dict, dictGet (match_archive_dep cdb a m) k = dictGet m k := by
  induction cdb with
  | nil => intro m; simp [match_archive_dep]
  | cons c rest ih =>
    intro m
    have hc := hnm c (List.mem_cons_self _ _)
    have ihr := ih (fun c' h' => hnm c' (List.mem_cons_of_mem _ h'))
    by_cases hd : basename c.output = a
    · have hak : a ≠ k := fun e => hc (hd.trans e)
      simp only [match_archive_dep, hd, if_true]
      rw [ihr, dictGet_insert_ne _ _ _ _ hak]
    · simp only [match_archive_dep, hd, if_false]
      exact ihr m

theorem match_obj_deps_get_none (rp : Str → Str) (fe : Str)
    (cdb : List CompileCommand) (k : Str)
    (hnm : ∀ c ∈ cdb, command_output_path rp c ≠ k) :
    ∀ (deps : List Str) (m : Dict) (u : List Str), dictGet m k = none →
      dictGet (match_obj_deps rp fe cdb deps m u).1 k = none := by
  intro deps
  induction deps with
  | nil => intro m u h; simpa [match_obj_deps] using h
  | cons dep rest ih =>
    intro m u h
    by_cases hfe : dep = fe
    · simp only [match_obj_deps, hfe, if_true]
      exact ih m u h
    · simp only [match_obj_deps, hfe, if_false]
      exact ih _ _ ((match_obj_dep_get_preserved rp cdb (rp dep) k hnm m).trans h)

theorem match_obj_deps_get_preserve_ne (rp : Str → Str) (fe : Str)
    (cdb : List CompileCommand) (k : Str) :
    ∀ (deps : List Str), (∀ d ∈ deps, d ≠ fe → rp d ≠ k) →
      ∀ (m : Dict) (u : List Str), dictGet m k = none →
        dictGet (match_obj_deps rp fe cdb deps m u).1 k = none := by
  intro deps
  induction deps with
  | nil => intro _ m u h; simpa [match_obj_deps] using h
  | cons dep rest ih =>
    intro hd m u h
    have ihr := ih (fun d h1 h2 => hd d (List.mem_cons_of_mem _ h1) h2)
    by_cases hfe : dep = fe
    · simp only [match_obj_deps, hfe, if_true]
      exact ihr m u h
    · simp only [match_obj_deps, hfe, if_false]
      have hne : rp dep ≠ k := hd dep (List.mem_cons_self _ _) hfe
      exact ihr _ _ ((match_obj_dep_get_preserved_of_ne rp cdb (rp dep) k hne m).trans h)

theorem match_archive_deps_get_none (cdb : List CompileCommand) (k : Str)
    (hnm : ∀ c ∈ cdb, basename c.output ≠ k) :
    ∀ (adeps : List Str) (m : Dict) (u : List Str), dictGet m k = none →
      dictGet (match_archive_deps cdb adeps m u).1 k = none := by
  intro adeps
  induction adeps with
  | nil => intro m u h; simpa [match_archive_deps] using h
  | cons a rest ih =>
    intro m u h
    simp only [match_archive_deps]
    exact ih _ _ ((match_archive_dep_get_preserved cdb a k hnm m).trans h)

theorem match_obj_deps_unmatched_mono (rp : Str → Str) (fe : Str)
    (cdb : List CompileCommand) (x : Str) :
    ∀ (deps : List Str) (m : Dict) (u : List Str), x ∈ u →
      x ∈ (match_obj_deps rp fe cdb deps m u).2 := by
  intro deps
  induction deps with
  | nil => intro m u h; simpa [match_obj_deps] using h
  | cons dep rest ih =>
    intro m u h
    by_cases hfe : dep = fe
    · simp only [match_obj_deps, hfe, if_true]
      exact ih m u h
    · simp only [match_obj_deps, hfe, if_false]
      apply ih
      by_cases hc : dictContains (match_obj_dep rp cdb (rp dep) m) (rp dep)
      · simpa [hc] using h
      · simp only [hc, if_false]
        exact List.mem_append_left _ h

theorem match_archive_deps_unmatched_mono (cdb : List CompileCommand) (x : Str) :
    ∀ (adeps : List Str) (m : Dict) (u : List Str), x ∈ u →
      x ∈ (match_archive_deps cdb adeps m u).2 := by
  intro adeps
  induction adeps with
  | nil => intro m u h; simpa [match_archive_deps] using h
  | cons a rest ih =>
    intro m u h
    simp only [match_archive_deps]
    apply ih
    by_cases hc : dictContains (match_archive_dep cdb a m) a
    · simpa [hc] using h
    · simp only [hc, if_false]
      exact List.mem_append_left _ h

theorem match_obj_deps_reports_unmatched (rp : Str → Str) (fe : Str)
    (cdb : List CompileCommand) (dep : Str)
    (hne : dep ≠ fe) (hnm : ∀ c ∈ cdb, command_output_path rp c ≠ rp dep) :
    ∀ (deps : List Str) (m : Dict) (u : List Str), dep ∈ deps →
      dictGet m (rp dep) = none →
      rp dep ∈ (match_obj_deps rp fe cdb deps m u).2
      ∧ dictGet (match_obj_deps rp fe cdb deps m u).1 (rp dep) = none := by
  intro deps
  induction deps with
  | nil => intro m u h; cases h
  | cons d rest ih =>
    intro m u hmem hm
    rcases List.mem_cons.mp hmem with rfl | hmem2
    · simp only [match_obj_deps, hne, if_false]
      have hm' : dictGet (match_obj_dep rp cdb (rp dep) m) (rp dep) = none :=
        (match_obj_dep_get_preserved rp cdb (rp dep) (rp dep) hnm m).trans hm
      have hc : dictContains (match_obj_dep rp cdb (rp dep) m) (rp dep) = false := by
        rw [dictContains_eq_isSome, hm']
        rfl
      rw [hc]
      refine ⟨match_obj_deps_unmatched_mono rp fe cdb (rp dep) rest _ _ ?_,
        match_obj_deps_get_none rp fe cdb (rp dep) hnm rest _ _ hm'⟩
      simp
    · by_cases hfe : d = fe
      · simp only [match_obj_deps, hfe, if_true]
        exact ih m u hmem2 hm
      · simp only [match_obj_deps, hfe, if_false]
        exact ih _ _ hmem2
          ((match_obj_dep_get_preserved rp cdb (rp d) (rp dep) hnm m).trans hm)

theorem match_archive_deps_reports_unmatched (cdb : List CompileCommand)
    (member : Str) (hnm : ∀ c ∈ cdb, basename c.output ≠ member) :
    ∀ (adeps : List Str) (m : Dict) (u : List Str), member ∈ adeps →
      dictGet m member = none →
      member ∈ (match_archive_deps cdb adeps m u).2
      ∧ dictGet (match_archive_deps cdb adeps m u).1 member = none := by
  intro adeps
  induction adeps with
  | nil => intro m u h; cases h
  | cons a rest ih =>
    intro m u hmem hm
    rcases List.mem_cons.mp hmem with rfl | hmem2
    · simp only [match_archive_deps]
      have hm' : dictGet (match_archive_dep cdb member m) member = none :=
        (match_archive_dep_get_preserved cdb member member hnm m).trans hm
      have hc : dictContains (match_archive_dep cdb member m) member = false := by
        rw [dictContains_eq_isSome, hm']
        rfl
      rw [hc]
      refine ⟨match_archive_deps_unmatched_mono cdb member rest _ _ ?_,
        match_archive_deps_get_none cdb member hnm rest _ _ hm'⟩
      simp
    · simp only [match_archive_deps]
      exact ih _ _ hmem2
        ((match_archive_dep_get_preserved cdb a member hnm m).trans hm)

/-- C6: a dependency (object-file path, and likewise an archive member) that
matches zero CompileCommands of the CDB is reported as unmatched — it appears
in the accumulated `NOT FOUND` report list — while the matcher still returns
normally, and the dependency is absent from the final matched-commands
mapping: no pair of the dict carries its key, so `list(commands.values())`
holds no entry (null or otherwise) for it. -/
theorem C6_unmatched_is_reported_not_fatal (rp : Str → Str) (fe : Str)
    (cdb : List CompileCommand) (deps adeps : List Str) (dep member : Str)
    (m m₂ : Dict) (u u₂ : List Str)
    (hdep : dep ∈ deps) (hne : dep ≠ fe)
    (hnm : ∀ c ∈ cdb, command_output_path rp c ≠ rp dep)
    (hm : dictGet m (rp dep) = none)
    (hmem : member ∈ adeps)
    (hnma : ∀ c ∈ cdb, basename c.output ≠ member)
    (hm₂ : dictGet m₂ member = none) :
    (rp dep ∈ (match_obj_deps rp fe cdb deps m u).2
      ∧ ∀ p ∈ (match_obj_deps rp fe cdb deps m u).1, p.1 ≠ rp dep)
    ∧ (member ∈ (match_archive_deps cdb adeps m₂ u₂).2
      ∧ ∀ p ∈ (match_archive_deps cdb adeps m₂ u₂).1, p.1 ≠ member) := by
  obtain ⟨r1, r2⟩ :=
    match_obj_deps_reports_unmatched rp fe cdb dep hne hnm deps m u hdep hm
  obtain ⟨s1, s2⟩ :=
    match_archive_deps_reports_unmatched cdb member hnma adeps m₂ u₂ hmem hm₂
  exact ⟨⟨r1, (dictGet_eq_none_iff _ _).mp r2⟩,
    ⟨s1, (dictGet_eq_none_iff _ _).mp s2⟩⟩

/-- A witness for C6: the object dependency `/c/y.o` and the archive member
`libz.o` match nothing in a CDB holding only a command for `/b/x.o`; both end
up reported and absent from the matched dict. -/
theorem C6_unmatched_is_reported_not_fatal_witness :
    (("/c/y.o".toList
        ∈ (match_obj_deps (fun s => s) ("ENG.a".toList) [cmdFirst]
            ["/c/y.o".toList] [] []).2
      ∧ ∀ p ∈ (match_obj_deps (fun s => s) ("ENG.a".toList) [cmdFirst]
            ["/c/y.o".toList] [] []).1, p.1 ≠ "/c/y.o".toList)
    ∧ ("libz.o".toList ∈ (match_archive_deps [cmdFirst] ["libz.o".toList] [] []).2
      ∧ ∀ p ∈ (match_archive_deps [cmdFirst] ["libz.o".toList] [] []).1,
          p.1 ≠ "libz.o".toList)) :=
  C6_unmatched_is_reported_not_fatal (fun s => s) ("ENG.a".toList) [cmdFirst]
    ["/c/y.o".toList] ["libz.o".toList] ("/c/y.o".toList) ("libz.o".toList)
    [] [] [] [] (by decide) (by decide) (by decide) (by decide) (by decide)
    (by decide) (by decide)

/-- C8: the fuzzing-engine artifact named by the environment configuration is
never bound by the matcher.  In the object-file pass `main` skips any
dependency equal to the engine path before matching, so (with dependencies
already canonical, as `parse_dependency_file` returns them) the engine path
is never a key of the matched dict; and the engine archive is filtered out of
`ar_deps`, so its members are never enumerated or matched. -/
theorem C8_engine_excluded (rp : Str → Str) (fe : Str)
    (cdb : List CompileCommand) (deps : List Str) (m : Dict) (u : List Str)
    (hcanon : ∀ d ∈ deps, rp d = d) (hm : dictGet m fe = none) :
    (∀ p ∈ (match_obj_deps rp fe cdb (obj_deps_of deps) m u).1, p.1 ≠ fe)
    ∧ fe ∉ ar_deps_of deps fe := by
  constructor
  · refine (dictGet_eq_none_iff _ _).mp ?_
    refine match_obj_deps_get_preserve_ne rp fe cdb fe (obj_deps_of deps) ?_ m u hm
    intro d hd hne
    rw [hcanon d (List.mem_of_mem_filter hd)]
    exact hne
  · intro hmem
    have := List.of_mem_filter hmem
    simp at this

/-- A witness for C8: with the engine `eng.a` among the dependencies, neither
the object matching over `obj_deps` nor the archive-dependency filter ever
involves the engine. -/
theorem C8_engine_excluded_witness :
    (∀ p ∈ (match_obj_deps (fun s => s) ("eng.a".toList) [cmdFirst]
        (obj_deps_of ["/b/x.o".toList, "eng.a".toList, "/c/z.a".toList]) [] []).1,
        p.1 ≠ "eng.a".toList)
    ∧ "eng.a".toList
        ∉ ar_deps_of ["/b/x.o".toList, "eng.a".toList, "/c/z.a".toList]
            ("eng.a".toList) :=
  C8_engine_excluded (fun s => s) ("eng.a".toList) [cmdFirst]
    ["/b/x.o".toList, "eng.a".toList, "/c/z.a".toList] [] []
    (by decide) (by decide)

/-! ### Flag extraction and removal (C9, C10) -/

theorem isPrefixOf_self_true (l : Str) : l.isPrefixOf l = true := by
  simp [List.isPrefixOf_iff_prefix]

/-- C10, as stated, is false on argument lists where an exact `-o` occurs
before the concatenated occurrence: in `["-o", "x", "-oy", "z"]` the flag
`-o` occurs concatenated as `-oy` at position 2 (before the last), yet the
result keeps `-oy` and `z` and instead removes the earlier pair — it is not
the list with the concatenated token and its follower removed. -/
theorem C10_mixed_forms_counterexample :
    remove_flag_and_value ["-o".toList, "x".toList, "-oy".toList, "z".toList] oFlag
        = some ["-oy".toList, "z".toList]
    ∧ oFlag.isPrefixOf ("-oy".toList) = true
    ∧ "-oy".toList ≠ oFlag
    ∧ (["-oy".toList, "z".toList] : List Str) ≠ ["-o".toList, "x".toList] := by
  refine ⟨by decide, by decide, by decide, by decide⟩

/-- C10 amended: let `i` be the **first** position whose token begins with
`-o` (exact or concatenated), with `i` before the last position.  Then
`remove_flag_and_value` with flag `-o` returns the list with exactly the two
tokens at positions `i` and `i+1` removed — for a concatenated occurrence the
concatenated token itself and the immediately following argument (even though
that argument is not part of the flag), for the separated form the flag token
and its value — and all other arguments keep their relative order. -/
theorem C10_remove_at_first_o_token (argv : List Str) (i : Nat)
    (hi : i + 1 < argv.length)
    (hfirst : ∀ j < i, oFlag.isPrefixOf (argv.getD j []) = false)
    (hocc : oFlag.isPrefixOf (argv.getD i []) = true) :
    remove_flag_and_value argv oFlag = some (argv.take i ++ argv.drop (i + 2)) := by
  induction argv generalizing i with
  | nil => simp at hi
  | cons a rest ih =>
    cases rest with
    | nil =>
      simp only [List.length_cons, List.length_nil] at hi
      omega
    | cons b rest2 =>
      cases i with
      | zero =>
        have ha : oFlag.isPrefixOf a = true := by simpa using hocc
        by_cases he : a = oFlag
        · simp [remove_flag_and_value, he]
        · simp [remove_flag_and_value, he, ha]
      | succ k =>
        have h0 : oFlag.isPrefixOf a = false := hfirst 0 (Nat.succ_pos k)
        have hne : a ≠ oFlag := by
          intro e
          rw [e, isPrefixOf_self_true] at h0
          cases h0
        have hrec := ih k (by simpa using hi)
          (fun j hj => by simpa using hfirst (j + 1) (Nat.succ_lt_succ hj))
          (by simpa using hocc)
        simp only [remove_flag_and_value, hne, if_false, h0, false_and, and_false]
        rw [hrec]
        simp

/-- A witness for C10: in `["a", "-oy", "z"]` the first `-o`-prefixed token is
the concatenated `-oy` at position 1; it and its follower are removed. -/
theorem C10_remove_at_first_o_token_witness :
    remove_flag_and_value ["a".toList, "-oy".toList, "z".toList] oFlag
      = some (["a".toList, "-oy".toList, "z".toList].take 1
          ++ ["a".toList, "-oy".toList, "z".toList].drop 3) :=
  C10_remove_at_first_o_token ["a".toList, "-oy".toList, "z".toList] 1
    (by decide) (by decide) (by decide)

theorem get_flag_value_isSome_of_found (argv : List Str) (i : Nat)
    (hi : i + 1 < argv.length)
    (hocc : argv.getD i [] = oFlag ∨ oFlag.isPrefixOf (argv.getD i []) = true) :
    (get_flag_value argv oFlag).isSome = true := by
  induction argv generalizing i with
  | nil => simp at hi
  | cons a rest ih =>
    cases rest with
    | nil =>
      simp only [List.length_cons, List.length_nil] at hi
      omega
    | cons b rest2 =>
      by_cases he : a = oFlag
      · simp [get_flag_value, he]
      · by_cases hp : oFlag.isPrefixOf a = true
        · simp [get_flag_value, he, hp]
        · cases i with
          | zero =>
            simp only [List.getD_cons_zero] at hocc
            rcases hocc with h | h
            · exact absurd h he
            · exact absurd h hp
          | succ k =>
            have hrec := ih k (by simpa using hi) (by simpa using hocc)
            simpa [get_flag_value, he, hp] using hrec

/-! ### The dispatcher and the capture pipeline (C7, C9) -/

theorem main_captures (w : World) (argv : List Str) (fe : Str)
    (hfe : w.fuzzer_engine = some fe) (hfe0 : fe ≠ [])
    (hin : fe ∈ argv ∨ lFuzzingEngine ∈ argv) :
    main w argv = .captured (main_capture w argv fe) := by
  simp only [main, hfe]
  rw [if_neg hfe0, if_neg ?_]
  rcases hin with h | h
  · exact fun hc => hc.1 h
  · exact fun hc => hc.2 h

/-- Inverting a successful capture: the pipeline reaches the final record
write only when every fatal/structural check passed. -/
theorem main_capture_ok_elim (w : World) (argv : List Str) (fe : Str)
    (pr : Str × LinkerCommands) (h : main_capture w argv fe = .ok pr) :
    ∃ out cdbp deps,
      get_flag_value argv oFlag = some out ∧ out ≠ []
      ∧ get_flag_value argv cdbFlag = some cdbp ∧ cdbp ≠ []
      ∧ w.linker_exit = 0 ∧ w.readelf_exit = 0 ∧ w.elf_build_id ≠ none
      ∧ parse_dependency_file w.rp w.dep_lines out w.ignored_deps = some deps
      ∧ (∀ a ∈ ar_deps_of deps fe, w.ar_exit a = 0)
      ∧ read_cdb_fragments w.fragments ≠ none := by
  unfold main_capture at h
  cases h1 : get_flag_value argv oFlag with
  | none => simp only [h1] at h; cases h
  | some out =>
  simp only [h1] at h
  by_cases h2 : out = []
  · rw [if_pos h2] at h; cases h
  rw [if_neg h2] at h
  cases h3 : get_flag_value argv cdbFlag with
  | none => simp only [h3] at h; cases h
  | some cdbp =>
  simp only [h3] at h
  by_cases h4 : cdbp = []
  · rw [if_pos h4] at h; cases h
  rw [if_neg h4] at h
  cases h5 : remove_flag_and_value argv cdbFlag with
  | none => simp only [h5] at h; cases h
  | some argv1 =>
  simp only [h5] at h
  by_cases h6 : w.linker_exit ≠ 0
  · rw [if_pos h6] at h; cases h
  rw [if_neg h6] at h
  by_cases h7 : w.readelf_exit ≠ 0
  · rw [if_pos h7] at h; cases h
  rw [if_neg h7] at h
  cases h8 : w.elf_build_id with
  | none => simp only [h8] at h; cases h
  | some build_id =>
  simp only [h8] at h
  cases h9 : parse_dependency_file w.rp w.dep_lines out w.ignored_deps with
  | none => simp only [h9] at h; cases h
  | some deps =>
  simp only [h9] at h
  by_cases h10 : ∃ a ∈ ar_deps_of deps fe, w.ar_exit a ≠ 0
  · rw [if_pos h10] at h; cases h
  rw [if_neg h10] at h
  cases h11 : read_cdb_fragments w.fragments with
  | none => simp only [h11] at h; cases h
  | some bodies =>
  refine ⟨out, cdbp, deps, rfl, h2, rfl, h4, by omega, by omega, by simp, h9, ?_, by simp⟩
  intro a ha
  by_contra hx
  exact h10 ⟨a, ha, hx⟩

theorem capture_error_total (w : World) (argv : List Str) (fe : Str)
    (h : ∀ pr, main_capture w argv fe ≠ .ok pr) :
    ∃ msg, main_capture w argv fe = .error msg := by
  cases hc : main_capture w argv fe with
  | error msg => exact ⟨msg, rfl⟩
  | ok pr => exact absurd hc (h pr)

/-- C7: in capture mode, every fatal/structural condition — missing `-o`
value, missing `-gen-cdb-fragment-path` value, non-zero exit of the linker or
of `llvm-readelf`, missing build identifier, unparseable dependency-file
header, failing `ar` on a required archive, or a torn CDB fragment — makes
the tool end in `Except.error`: a nonzero process exit with no provenance
record value produced, partial or otherwise (the record file write is the
only `.ok` outcome). -/
theorem C7_fatal_means_no_record (w : World) (argv : List Str) (fe : Str)
    (hfe : w.fuzzer_engine = some fe) (hfe0 : fe ≠ [])
    (hin : fe ∈ argv ∨ lFuzzingEngine ∈ argv)
    (hfatal :
      get_flag_value argv oFlag = none
      ∨ get_flag_value argv cdbFlag = none
      ∨ w.linker_exit ≠ 0
      ∨ w.readelf_exit ≠ 0
      ∨ w.elf_build_id = none
      ∨ (∀ out, parse_dependency_file w.rp w.dep_lines out w.ignored_deps = none)
      ∨ (∀ out deps,
          parse_dependency_file w.rp w.dep_lines out w.ignored_deps = some deps →
          ∃ a ∈ ar_deps_of deps fe, w.ar_exit a ≠ 0)
      ∨ read_cdb_fragments w.fragments = none) :
    ∃ msg, main w argv = .captured (Except.error msg) := by
  rw [main_captures w argv fe hfe hfe0 hin]
  cases hc : main_capture w argv fe with
  | error msg => exact ⟨msg, rfl⟩
  | ok pr =>
    exfalso
    obtain ⟨out, cdbp, deps, g1, g2, g3, g4, g5, g6, g7, g8, g9, g10⟩ :=
      main_capture_ok_elim w argv fe pr hc
    rcases hfatal with f | f | f | f | f | f | f | f
    · rw [f] at g1; cases g1
    · rw [f] at g3; cases g3
    · exact f g5
    · exact f g6
    · exact g7 f
    · rw [f out] at g8; cases g8
    · obtain ⟨a, ha, hx⟩ := f out deps g8
      exact hx (g9 a ha)
    · exact g10 f

/-- A concrete world for the C7 and C9 witnesses: the engine is configured,
all tools succeed, but the invocation lacks `-gen-cdb-fragment-path`. -/
def W0 : World :=
  { rp := fun s => s
    cwd := []
    fuzzer_engine := some ("eng.a".toList)
    linker_exit := 0
    readelf_exit := 0
    elf_build_id := some ("bid".toList)
    output_sha256 := []
    ignored_deps := []
    dep_lines := []
    ar_exit := fun _ => 0
    ar_members := fun _ => []
    json_parse := fun _ => ⟨[], [], []⟩
    fragments := [] }

/-- A witness for C7: a capture-mode invocation whose arguments lack the
fragment-directory flag aborts with an error and no record. -/
theorem C7_fatal_means_no_record_witness :
    ∃ msg, main W0 ["clang".toList, "eng.a".toList, "-o".toList, "out".toList]
      = .captured (Except.error msg) :=
  C7_fatal_means_no_record W0
    ["clang".toList, "eng.a".toList, "-o".toList, "out".toList]
    ("eng.a".toList) rfl (by decide) (Or.inl (by decide))
    (Or.inr (Or.inl (by decide)))

/-- C9: flag-value extraction searches every argument position but the last:
an output flag occurring before the last position, whether as the separated
token `-o` or concatenated `-o<path>`, always yields a value; and in capture
mode a missing `-o` value or a missing `-gen-cdb-fragment-path` value makes
the invocation fail fatally. -/
theorem C9_output_flag_extraction (w : World) (argv : List Str) (fe : Str)
    (i : Nat) (hfe : w.fuzzer_engine = some fe) (hfe0 : fe ≠ [])
    (hin : fe ∈ argv ∨ lFuzzingEngine ∈ argv)
    (hi : i + 1 < argv.length) :
    ((argv.getD i [] = oFlag ∨ oFlag.isPrefixOf (argv.getD i []) = true) →
        (get_flag_value argv oFlag).isSome = true)
    ∧ ((get_flag_value argv oFlag = none ∨ get_flag_value argv cdbFlag = none) →
        ∃ msg, main w argv = .captured (Except.error msg)) := by
  constructor
  · exact get_flag_value_isSome_of_found argv i hi
  · intro hnone
    rw [main_captures w argv fe hfe hfe0 hin]
    cases hc : main_capture w argv fe with
    | error msg => exact ⟨msg, rfl⟩
    | ok pr =>
      exfalso
      obtain ⟨out, cdbp, deps, g1, g2, g3, g4, g5, g6, g7, g8, g9, g10⟩ :=
        main_capture_ok_elim w argv fe pr hc
      rcases hnone with f | f
      · rw [f] at g1; cases g1
      · rw [f] at g3; cases g3

/-- A witness for C9: `-o` at position 2 of 4 is found, and the same
invocation, lacking the fragment-directory flag, fails fatally. -/
theorem C9_output_flag_extraction_witness :
    ((["clang".toList, "eng.a".toList, "-o".toList, "out".toList].getD 2 [] = oFlag
      ∨ oFlag.isPrefixOf
          (["clang".toList, "eng.a".toList, "-o".toList, "out".toList].getD 2 [])
          = true) →
      (get_flag_value ["clang".toList, "eng.a".toList, "-o".toList, "out".toList]
          oFlag).isSome = true)
    ∧ ((get_flag_value ["clang".toList, "eng.a".toList, "-o".toList, "out".toList]
          oFlag = none
      ∨ get_flag_value ["clang".toList, "eng.a".toList, "-o".toList, "out".toList]
          cdbFlag = none) →
      ∃ msg, main W0 ["clang".toList, "eng.a".toList, "-o".toList, "out".toList]
        = .captured (Except.error msg)) :=
  C9_output_flag_extraction W0
    ["clang".toList, "eng.a".toList, "-o".toList, "out".toList]
    ("eng.a".toList) 2 rfl (by decide) (Or.inl (by decide)) (by decide)

end ClangWrapper
